import Mathlib

/-!
Verification development for the redaction core of `upload_app.py`
(`KEY_PATTERNS`, `sanitize_key`, `extract_keys`, `anonymize`).

Strings are modelled as `List Char`. The Python string primitives used by
the code (`str.title`, `str.rstrip(':')`, `str.split(':',1)[0]`,
`str.isdigit`, and `re.match` with `re.IGNORECASE`) are embedded for the
ASCII range, which covers every key the patterns and the data use.
-/

namespace UploadApp

abbrev Str := List Char

/-- ASCII lower-casing of one character, as Python `str.lower` acts on ASCII:
codepoints 65..90 are shifted up by 32, everything else is unchanged. -/
def lowerChar (c : Char) : Char :=
  if 65 ≤ c.toNat ∧ c.toNat ≤ 90 then Char.ofNat (c.toNat + 32) else c

/-- ASCII upper-casing of one character: codepoints 97..122 are shifted down
by 32, everything else is unchanged. -/
def upperChar (c : Char) : Char :=
  if 97 ≤ c.toNat ∧ c.toNat ≤ 122 then Char.ofNat (c.toNat - 32) else c

/-- ASCII cased (alphabetic) character, the "cased" test of Python
`str.title` restricted to ASCII. -/
def isAsciiAlpha (c : Char) : Bool :=
  decide ((65 ≤ c.toNat ∧ c.toNat ≤ 90) ∨ (97 ≤ c.toNat ∧ c.toNat ≤ 122))

/-- ASCII decimal digit character. -/
def isAsciiDigit (c : Char) : Bool :=
  decide (48 ≤ c.toNat ∧ c.toNat ≤ 57)

/-- Python `s.isdigit()` on ASCII: nonempty and every character a digit. -/
def pyIsDigit (s : Str) : Bool :=
  (!s.isEmpty) && s.all isAsciiDigit

/-- One step of Python `str.title`: a cased character is lower-cased when the
previous character was cased and upper-cased otherwise; uncased characters
pass through. -/
def pyTitleChar (prev : Bool) (c : Char) : Char :=
  if isAsciiAlpha c then (if prev then lowerChar c else upperChar c) else c

/-- Python `str.title`, threading the previous-character-was-cased flag. -/
def pyTitleAux : Bool → Str → Str
  | _, [] => []
  | prev, c :: cs => pyTitleChar prev c :: pyTitleAux (isAsciiAlpha c) cs

/-- Python `str.title` (word-initial characters upper-cased, the rest of each
word lower-cased). -/
def pyTitle (s : Str) : Str := pyTitleAux false s

/-- Python `k.rstrip(':')`: remove every trailing colon. -/
def rstripColon (s : Str) : Str :=
  (s.reverse.dropWhile (fun c => c == ':')).reverse

/-- Python `k.split(':', 1)[0]`: the text before the first colon (the whole
string when it has no colon). -/
def splitHeadColon (s : Str) : Str :=
  s.takeWhile (fun c => c != ':')

/-- Match a literal pattern fragment case-insensitively against the start of
the subject; on success return the remainder of the subject
(`re.IGNORECASE` literal matching, ASCII). -/
def stripCI : Str → Str → Option Str
  | [], s => some s
  | _ :: _, [] => none
  | p :: ps, c :: cs => if lowerChar p = lowerChar c then stripCI ps cs else none

/-- Anchored case-insensitive literal test: Python `re.match(pat + '.*', s, re.I)`
for a literal `pat`, whose trailing `.*` always succeeds. -/
def startsCI (pat s : Str) : Bool := (stripCI pat s).isSome

/-- The regex `Chat History with .+` under `re.match`/`re.IGNORECASE`: the
literal prefix followed by at least one character, which `.` requires to be
different from a newline. -/
def reMatchChat (s : Str) : Bool :=
  match stripCI ("Chat History with ".toList) s with
  | some (c :: _) => c != '\n'
  | _ => false

/-- A regex of the shape `stems?:.*` under `re.match`/`re.IGNORECASE`: the
stem, an optional letter s, then a colon; the trailing `.*` always succeeds. -/
def reMatchStemOptS (stem : Str) (s : Str) : Bool :=
  startsCI (stem ++ [':']) s || startsCI (stem ++ ['s', ':']) s

/-- The `KEY_PATTERNS` table of `upload_app.py`:
`['Chat History with .+', 'comments?:.*', 'replies?:.*', 'posts?:.*', 'story:.*']`,
each entry embedded as its anchored case-insensitive matcher. -/
def KEY_PATTERNS : List (Str → Bool) :=
  [reMatchChat,
   reMatchStemOptS ("comment".toList),
   reMatchStemOptS ("replie".toList),
   reMatchStemOptS ("post".toList),
   startsCI ("story:".toList)]

/-- Python `sanitize_key`: when some pattern matches the raw key, return the
text before the first colon, title-cased; otherwise return the raw key with
every trailing colon stripped. -/
def sanitize_key (k : Str) : Str :=
  if KEY_PATTERNS.any (fun p => p k) then pyTitle (splitHeadColon k)
  else rstripColon k

mutual

/-- JSON values: objects keep their entries in insertion order, as Python
`dict` does. -/
inductive Json where
  | null : Json
  | bool (b : Bool) : Json
  | num (n : Int) : Json
  | str (s : Str) : Json
  | arr (xs : JsonArr) : Json
  | obj (es : JsonObj) : Json
deriving DecidableEq

/-- A JSON array: an ordered sequence of JSON values. -/
inductive JsonArr where
  | nil : JsonArr
  | cons (hd : Json) (tl : JsonArr) : JsonArr
deriving DecidableEq

/-- A JSON object: an ordered association sequence of key/value entries. -/
inductive JsonObj where
  | nil : JsonObj
  | cons (k : Str) (v : Json) (tl : JsonObj) : JsonObj
deriving DecidableEq

end

instance : Inhabited Json := ⟨.null⟩

instance : Inhabited JsonArr := ⟨.nil⟩

instance : Inhabited JsonObj := ⟨.nil⟩

instance : Nonempty Json := ⟨.null⟩

instance : Nonempty JsonArr := ⟨.nil⟩

instance : Nonempty JsonObj := ⟨.nil⟩

/-- The redaction marker value, the Python string literal `'REDACTED'`. -/
def REDACTED : Json := .str ("REDACTED".toList)

/-- View of an object as a list of entries. -/
def JsonObj.toList : JsonObj → List (Str × Json)
  | .nil => []
  | .cons k v tl => (k, v) :: tl.toList

/-- View of an array as a list of values. -/
def JsonArr.toList : JsonArr → List Json
  | .nil => []
  | .cons x tl => x :: tl.toList

/-- The keys of an object, in order. -/
def JsonObj.keys (o : JsonObj) : List Str := o.toList.map Prod.fst

/-- Number of entries of an object. -/
def JsonObj.length : JsonObj → Nat
  | .nil => 0
  | .cons _ _ tl => tl.length + 1

/-- Python `d[k] = v` on an insertion-ordered `dict`: when `k` is already
present the value is replaced at the key's original position, otherwise the
entry is appended. -/
def upsert : JsonObj → Str → Json → JsonObj
  | .nil, k, v => .cons k v .nil
  | .cons k0 v0 tl, k, v =>
      if k0 = k then .cons k v tl else .cons k0 v0 (upsert tl k v)

/-- Build a Python `dict` from a sequence of key/value pairs by repeated
assignment, exactly what a dict comprehension does with colliding keys. -/
def insertAll (acc : JsonObj) : JsonObj → JsonObj
  | .nil => acc
  | .cons k v tl => insertAll (upsert acc k v) tl

mutual

/-- Python `anonymize(obj, ppi_set)`: objects are rebuilt as a dict
comprehension over sanitized keys, redacting the value of every key whose
canonical form is in the set; arrays are mapped; scalars returned as-is. -/
def anonymize (S : List Str) : Json → Json
  | .null => .null
  | .bool b => .bool b
  | .num n => .num n
  | .str s => .str s
  | .arr xs => .arr (anonArr S xs)
  | .obj es => .obj (insertAll .nil (anonEntries S es))

/-- The list comprehension `[anonymize(i, ppi_set) for i in obj]`. -/
def anonArr (S : List Str) : JsonArr → JsonArr
  | .nil => .nil
  | .cons x tl => .cons (anonymize S x) (anonArr S tl)

/-- The entry sequence produced inside the dict comprehension of
`anonymize`, before dict assignment collapses colliding keys. -/
def anonEntries (S : List Str) : JsonObj → JsonObj
  | .nil => .nil
  | .cons k v tl =>
      .cons (sanitize_key k)
        (if sanitize_key k ∈ S then REDACTED else anonymize S v)
        (anonEntries S tl)

end

mutual

/-- Python `extract_keys(obj)`: collect every sanitized key of every object
at any depth, skipping keys that `str.isdigit` accepts. The Python result is
a set; this list represents it and is read through membership. -/
def extract_keys : Json → List Str
  | .null => []
  | .bool _ => []
  | .num _ => []
  | .str _ => []
  | .arr xs => extractArr xs
  | .obj es => extractObj es

/-- Key collection over the elements of an array. -/
def extractArr : JsonArr → List Str
  | .nil => []
  | .cons x tl => extract_keys x ++ extractArr tl

/-- Key collection over the entries of an object: the sanitized key when it
is not all-digit, then the keys of the value, then the rest. -/
def extractObj : JsonObj → List Str
  | .nil => []
  | .cons k v tl =>
      (if pyIsDigit (sanitize_key k) then [] else [sanitize_key k])
        ++ extract_keys v ++ extractObj tl

end

mutual

/-- Every object key occurring anywhere in a JSON value (observation used to
state discovery completeness). -/
def allKeys : Json → List Str
  | .null => []
  | .bool _ => []
  | .num _ => []
  | .str _ => []
  | .arr xs => allKeysArr xs
  | .obj es => allKeysObj es

/-- Keys occurring in the elements of an array. -/
def allKeysArr : JsonArr → List Str
  | .nil => []
  | .cons x tl => allKeys x ++ allKeysArr tl

/-- Keys occurring in an object: each entry's key and the keys inside its
value. -/
def allKeysObj : JsonObj → List Str
  | .nil => []
  | .cons k v tl => k :: (allKeys v ++ allKeysObj tl)

end

/-- Concatenation of two objects. -/
def JsonObj.append : JsonObj → JsonObj → JsonObj
  | .nil, o => o
  | .cons k v tl, o => .cons k v (tl.append o)

/-- The entries of a `Json` value when it is an object, `nil` otherwise. -/
def objEntries : Json → JsonObj
  | .obj es => es
  | _ => .nil

mutual

/-- Reference transformer written from the redaction contract of the spec:
each entry's key is replaced by its canonical form, a redaction-set member's
value becomes the marker, any other value is processed recursively, arrays
are mapped, scalars returned unchanged — entry for entry, with no dict
collapse of colliding canonical keys. -/
def specRedact (S : List Str) : Json → Json
  | .null => .null
  | .bool b => .bool b
  | .num n => .num n
  | .str s => .str s
  | .arr xs => .arr (specRedactArr S xs)
  | .obj es => .obj (specRedactObj S es)

/-- Entrywise redaction of an array per the spec contract. -/
def specRedactArr (S : List Str) : JsonArr → JsonArr
  | .nil => .nil
  | .cons x tl => .cons (specRedact S x) (specRedactArr S tl)

/-- Entrywise redaction of an object per the spec contract. -/
def specRedactObj (S : List Str) : JsonObj → JsonObj
  | .nil => .nil
  | .cons k v tl =>
      .cons (sanitize_key k)
        (if sanitize_key k ∈ S then REDACTED else specRedact S v)
        (specRedactObj S tl)

end

mutual

/-- Every object in the tree has pairwise-distinct canonical keys, so dict
rebuilding drops no entry. -/
def noCollision : Json → Bool
  | .null => true
  | .bool _ => true
  | .num _ => true
  | .str _ => true
  | .arr xs => noCollisionArr xs
  | .obj es =>
      decide ((es.toList.map (fun kv => sanitize_key kv.1)).Nodup)
        && noCollisionObj es

/-- Collision freedom for every element of an array. -/
def noCollisionArr : JsonArr → Bool
  | .nil => true
  | .cons x tl => noCollision x && noCollisionArr tl

/-- Collision freedom for every value of an object. -/
def noCollisionObj : JsonObj → Bool
  | .nil => true
  | .cons _ v tl => noCollision v && noCollisionObj tl

end

/-- Two distinct raw keys, `"a"` and `"a:"`, that sanitize to the same
canonical key `"a"`. -/
def collisionObj : JsonObj :=
  .cons ("a".toList) .null (.cons ("a:".toList) .null .nil)

/-- The collision pair with distinguishable values, to observe which value
survives. -/
def collisionPair : JsonObj :=
  .cons ("a".toList) (.num 1) (.cons ("a:".toList) (.num 2) .nil)

/-- The document `{"0": null}` whose only key is all-digit. -/
def digitDoc : Json := .obj (.cons ("0".toList) .null .nil)

/-- The object of the digit-key exclusion scenario, `{"0":"a","1":"b"}`. -/
def digitPairObj : JsonObj :=
  .cons ("0".toList) (.str ("a".toList))
    (.cons ("1".toList) (.str ("b".toList)) .nil)

/-- The end-to-end scenario input
`{"username":"bob","bio":"hi","posts":[{"text":"hello","likes":5}]}`. -/
def scenarioDoc : Json :=
  .obj (.cons ("username".toList) (.str ("bob".toList))
       (.cons ("bio".toList) (.str ("hi".toList))
       (.cons ("posts".toList)
          (.arr (.cons
            (.obj (.cons ("text".toList) (.str ("hello".toList))
                  (.cons ("likes".toList) (.num 5) .nil)))
            .nil))
        .nil)))

/-- The expected redaction of `scenarioDoc` with redaction set `{"username"}`:
`{"username":"REDACTED","bio":"hi","posts":[{"text":"hello","likes":5}]}`. -/
def scenarioRedacted : Json :=
  .obj (.cons ("username".toList) REDACTED
       (.cons ("bio".toList) (.str ("hi".toList))
       (.cons ("posts".toList)
          (.arr (.cons
            (.obj (.cons ("text".toList) (.str ("hello".toList))
                  (.cons ("likes".toList) (.num 5) .nil)))
            .nil))
        .nil)))

theorem toNat_ofNat_ascii (n : Nat) (h : n < 55296) : (Char.ofNat n).toNat = n := by
  rw [Char.ofNat, dif_pos (Or.inl h)]
  rfl

theorem lowerChar_pos {c : Char} (h : 65 ≤ c.toNat ∧ c.toNat ≤ 90) :
    lowerChar c = Char.ofNat (c.toNat + 32) := by
  unfold lowerChar; exact if_pos h

theorem lowerChar_neg {c : Char} (h : ¬(65 ≤ c.toNat ∧ c.toNat ≤ 90)) :
    lowerChar c = c := by
  unfold lowerChar; exact if_neg h

theorem upperChar_pos {c : Char} (h : 97 ≤ c.toNat ∧ c.toNat ≤ 122) :
    upperChar c = Char.ofNat (c.toNat - 32) := by
  unfold upperChar; exact if_pos h

theorem upperChar_neg {c : Char} (h : ¬(97 ≤ c.toNat ∧ c.toNat ≤ 122)) :
    upperChar c = c := by
  unfold upperChar; exact if_neg h

theorem isAsciiAlpha_lowerChar (c : Char) :
    isAsciiAlpha (lowerChar c) = isAsciiAlpha c := by
  by_cases h : 65 ≤ c.toNat ∧ c.toNat ≤ 90
  · rw [lowerChar_pos h]
    unfold isAsciiAlpha
    rw [toNat_ofNat_ascii _ (by omega)]
    simp only [decide_eq_decide]
    omega
  · rw [lowerChar_neg h]

theorem isAsciiAlpha_upperChar (c : Char) :
    isAsciiAlpha (upperChar c) = isAsciiAlpha c := by
  by_cases h : 97 ≤ c.toNat ∧ c.toNat ≤ 122
  · rw [upperChar_pos h]
    unfold isAsciiAlpha
    rw [toNat_ofNat_ascii _ (by omega)]
    simp only [decide_eq_decide]
    omega
  · rw [upperChar_neg h]

theorem lowerChar_idem (c : Char) : lowerChar (lowerChar c) = lowerChar c := by
  by_cases h : 65 ≤ c.toNat ∧ c.toNat ≤ 90
  · rw [lowerChar_pos h]
    apply lowerChar_neg
    rw [toNat_ofNat_ascii _ (by omega)]
    omega
  · rw [lowerChar_neg h, lowerChar_neg h]

theorem upperChar_idem (c : Char) : upperChar (upperChar c) = upperChar c := by
  by_cases h : 97 ≤ c.toNat ∧ c.toNat ≤ 122
  · rw [upperChar_pos h]
    apply upperChar_neg
    rw [toNat_ofNat_ascii _ (by omega)]
    omega
  · rw [upperChar_neg h, upperChar_neg h]

theorem isAsciiAlpha_pyTitleChar (prev : Bool) (c : Char) :
    isAsciiAlpha (pyTitleChar prev c) = isAsciiAlpha c := by
  by_cases h : isAsciiAlpha c = true <;> cases prev <;>
    simp [pyTitleChar, h, isAsciiAlpha_lowerChar, isAsciiAlpha_upperChar]

theorem pyTitleChar_idem (prev : Bool) (c : Char) :
    pyTitleChar prev (pyTitleChar prev c) = pyTitleChar prev c := by
  by_cases h : isAsciiAlpha c = true <;> cases prev <;>
    simp [pyTitleChar, h, isAsciiAlpha_lowerChar, isAsciiAlpha_upperChar,
      lowerChar_idem, upperChar_idem]

theorem pyTitleAux_idem (b : Bool) (s : Str) :
    pyTitleAux b (pyTitleAux b s) = pyTitleAux b s := by
  induction s generalizing b with
  | nil => rfl
  | cons c cs ih =>
    simp only [pyTitleAux]
    rw [isAsciiAlpha_pyTitleChar, pyTitleChar_idem, ih]

theorem pyTitleChar_ne_colon (b : Bool) (c : Char) (h : c ≠ ':') :
    pyTitleChar b c ≠ ':' := by
  intro hc
  by_cases ha : isAsciiAlpha c = true
  · have halpha : isAsciiAlpha (pyTitleChar b c) = true := by
      rw [isAsciiAlpha_pyTitleChar]; exact ha
    rw [hc] at halpha
    exact absurd halpha (by decide)
  · have heq : pyTitleChar b c = c := by simp [pyTitleChar, ha]
    exact h (heq ▸ hc)

theorem pyTitleAux_no_colon (b : Bool) (s : Str) (h : ∀ c ∈ s, c ≠ ':') :
    ∀ c ∈ pyTitleAux b s, c ≠ ':' := by
  induction s generalizing b with
  | nil => intro c hc; cases hc
  | cons d ds ih =>
    intro c hc
    simp only [pyTitleAux, List.mem_cons] at hc
    rcases hc with rfl | hc
    · exact pyTitleChar_ne_colon _ _ (h d (by simp))
    · exact ih _ (fun e he => h e (List.mem_cons_of_mem _ he)) c hc

theorem splitHeadColon_no_colon (s : Str) : ∀ c ∈ splitHeadColon s, c ≠ ':' := by
  intro c hc
  have := List.mem_takeWhile_imp hc
  simpa using this

theorem splitHeadColon_of_no_colon :
    ∀ (s : Str), (∀ c ∈ s, c ≠ ':') → splitHeadColon s = s
  | [], _ => rfl
  | d :: ds, h => by
      have hd : (d != ':') = true := by simpa using h d (by simp)
      have ih := splitHeadColon_of_no_colon ds
        (fun e he => h e (List.mem_cons_of_mem _ he))
      simp only [splitHeadColon] at ih ⊢
      have hstep : List.takeWhile (fun c => c != ':') (d :: ds)
          = d :: List.takeWhile (fun c => c != ':') ds :=
        List.takeWhile_cons_of_pos hd
      rw [hstep, ih]

theorem dropWhile_eq_self_of_all (p : Char → Bool) (l : Str)
    (h : ∀ c ∈ l, p c = false) : l.dropWhile p = l := by
  cases l with
  | nil => rfl
  | cons a l =>
    rw [List.dropWhile_cons_of_neg]
    simp [h a]

theorem rstripColon_of_no_colon (s : Str) (h : ∀ c ∈ s, c ≠ ':') :
    rstripColon s = s := by
  unfold rstripColon
  rw [dropWhile_eq_self_of_all _ _ ?hall, List.reverse_reverse]
  case hall =>
    intro c hc
    rw [List.mem_reverse] at hc
    simpa using h c hc

theorem dropWhile_idem (p : Char → Bool) (l : Str) :
    (l.dropWhile p).dropWhile p = l.dropWhile p := by
  induction l with
  | nil => rfl
  | cons a l ih =>
    by_cases h : p a = true
    · rw [List.dropWhile_cons_of_pos h]
      exact ih
    · rw [List.dropWhile_cons_of_neg (by simp [h]),
        List.dropWhile_cons_of_neg (by simp [h])]

theorem rstripColon_idem (s : Str) :
    rstripColon (rstripColon s) = rstripColon s := by
  unfold rstripColon
  rw [List.reverse_reverse, dropWhile_idem]

theorem rstripColon_append (s : Str) :
    ∃ t : Str, (∀ c ∈ t, c = ':') ∧ s = rstripColon s ++ t := by
  refine ⟨(s.reverse.takeWhile (fun c => c == ':')).reverse, ?_, ?_⟩
  · intro c hc
    rw [List.mem_reverse] at hc
    have := List.mem_takeWhile_imp hc
    simpa using this
  · unfold rstripColon
    rw [← List.reverse_append, List.takeWhile_append_dropWhile,
      List.reverse_reverse]

theorem stripCI_append {pat r rest : Str} (t : Str)
    (h : stripCI pat r = some rest) :
    stripCI pat (r ++ t) = some (rest ++ t) := by
  induction pat generalizing r rest with
  | nil =>
    simp only [stripCI, Option.some.injEq] at h ⊢
    rw [h]
  | cons p ps ih =>
    cases r with
    | nil => simp [stripCI] at h
    | cons c cs =>
      simp only [stripCI, List.cons_append] at h ⊢
      split at h
      · rename_i hlc
        rw [if_pos hlc]
        exact ih h
      · exact absurd h (by simp)

theorem startsCI_append {pat r : Str} (t : Str) (h : startsCI pat r = true) :
    startsCI pat (r ++ t) = true := by
  unfold startsCI at h ⊢
  cases hs : stripCI pat r with
  | none => rw [hs] at h; cases h
  | some rest => rw [stripCI_append t hs]; rfl

theorem reMatchChat_append {r : Str} (t : Str) (h : reMatchChat r = true) :
    reMatchChat (r ++ t) = true := by
  unfold reMatchChat at h ⊢
  cases hs : stripCI ("Chat History with ".toList) r with
  | none => rw [hs] at h; cases h
  | some rest =>
    cases rest with
    | nil => rw [hs] at h; cases h
    | cons c cs =>
      rw [hs] at h
      rw [stripCI_append t hs]
      simpa using h

theorem reMatchStemOptS_append {stem r : Str} (t : Str)
    (h : reMatchStemOptS stem r = true) :
    reMatchStemOptS stem (r ++ t) = true := by
  unfold reMatchStemOptS at h ⊢
  rcases Bool.or_eq_true_iff.mp h with h1 | h1
  · rw [startsCI_append t h1]
    rfl
  · rw [startsCI_append t h1]
    simp

theorem keyPatterns_append {r : Str} (t : Str)
    (h : KEY_PATTERNS.any (fun p => p r) = true) :
    KEY_PATTERNS.any (fun p => p (r ++ t)) = true := by
  simp only [KEY_PATTERNS, List.any_cons, List.any_nil, Bool.or_eq_true,
    Bool.or_eq_false_iff] at h ⊢
  rcases h with h | h | h | h | h | h
  · exact Or.inl (reMatchChat_append t h)
  · exact Or.inr (Or.inl (reMatchStemOptS_append t h))
  · exact Or.inr (Or.inr (Or.inl (reMatchStemOptS_append t h)))
  · exact Or.inr (Or.inr (Or.inr (Or.inl (reMatchStemOptS_append t h))))
  · exact Or.inr (Or.inr (Or.inr (Or.inr (Or.inl (startsCI_append t h)))))
  · cases h

theorem sanitizeKey_idem (k : Str) :
    sanitize_key (sanitize_key k) = sanitize_key k := by
  by_cases hm : KEY_PATTERNS.any (fun p => p k) = true
  · have hr : sanitize_key k = pyTitle (splitHeadColon k) := by
      simp [sanitize_key, hm]
    set r := pyTitle (splitHeadColon k) with hrdef
    have hnc : ∀ c ∈ r, c ≠ ':' :=
      pyTitleAux_no_colon _ _ (splitHeadColon_no_colon k)
    rw [hr]
    by_cases hm2 : KEY_PATTERNS.any (fun p => p r) = true
    · have hstep : sanitize_key r = pyTitle (splitHeadColon r) := by
        simp [sanitize_key, hm2]
      rw [hstep, splitHeadColon_of_no_colon r hnc, hrdef]
      exact pyTitleAux_idem false _
    · have hstep : sanitize_key r = rstripColon r := by
        simp [sanitize_key, hm2]
      rw [hstep]
      exact rstripColon_of_no_colon r hnc
  · have hr : sanitize_key k = rstripColon k := by
      simp [sanitize_key, hm]
    rw [hr]
    have hm2 : ¬ KEY_PATTERNS.any (fun p => p (rstripColon k)) = true := by
      obtain ⟨t, _, hkt⟩ := rstripColon_append k
      intro hcon
      have hall := keyPatterns_append t hcon
      rw [← hkt] at hall
      exact hm hall
    have hstep : sanitize_key (rstripColon k) = rstripColon (rstripColon k) := by
      simp [sanitize_key, hm2]
    rw [hstep]
    exact rstripColon_idem k

theorem toList_append : ∀ (a b : JsonObj),
    (a.append b).toList = a.toList ++ b.toList
  | .nil, _ => rfl
  | .cons k v tl, b => by
      simp only [JsonObj.append, JsonObj.toList, toList_append tl b,
        List.cons_append]

theorem keys_append (a b : JsonObj) : (a.append b).keys = a.keys ++ b.keys := by
  simp [JsonObj.keys, toList_append]

theorem append_nil : ∀ (a : JsonObj), a.append .nil = a
  | .nil => rfl
  | .cons k v tl => by simp only [JsonObj.append, append_nil tl]

theorem append_assoc : ∀ (a b c : JsonObj),
    (a.append b).append c = a.append (b.append c)
  | .nil, _, _ => rfl
  | .cons k v tl, b, c => by
      simp only [JsonObj.append, append_assoc tl b c]

theorem upsert_mem : ∀ (d : JsonObj) (k : Str) (v : Json) (p : Str × Json),
    p ∈ (upsert d k v).toList → p ∈ d.toList ∨ p = (k, v)
  | .nil, k, v, p => by
      intro h
      simp only [upsert, JsonObj.toList, List.mem_singleton] at h
      exact Or.inr h
  | .cons k0 v0 tl, k, v, p => by
      intro h
      simp only [upsert] at h
      by_cases hk : k0 = k
      · rw [if_pos hk] at h
        simp only [JsonObj.toList, List.mem_cons] at h
        rcases h with rfl | h
        · exact Or.inr rfl
        · exact Or.inl (List.mem_cons_of_mem _ h)
      · rw [if_neg hk] at h
        simp only [JsonObj.toList, List.mem_cons] at h
        rcases h with rfl | h
        · exact Or.inl (List.mem_cons_self _ _)
        · rcases upsert_mem tl k v p h with h1 | h1
          · exact Or.inl (List.mem_cons_of_mem _ h1)
          · exact Or.inr h1

theorem insertAll_mem : ∀ (l acc : JsonObj) (p : Str × Json),
    p ∈ (insertAll acc l).toList → p ∈ acc.toList ∨ p ∈ l.toList
  | .nil, acc, p => fun h => Or.inl h
  | .cons k v tl, acc, p => by
      intro h
      rcases insertAll_mem tl (upsert acc k v) p h with h1 | h1
      · rcases upsert_mem acc k v p h1 with h2 | h2
        · exact Or.inl h2
        · exact Or.inr (by simp [JsonObj.toList, h2])
      · exact Or.inr (by simp [JsonObj.toList, h1])

theorem upsert_keys : ∀ (d : JsonObj) (k : Str) (v : Json),
    (upsert d k v).keys = if k ∈ d.keys then d.keys else d.keys ++ [k]
  | .nil, k, v => by simp [upsert, JsonObj.keys, JsonObj.toList]
  | .cons k0 v0 tl, k, v => by
      by_cases hk : k0 = k
      · subst hk
        simp [upsert, JsonObj.keys, JsonObj.toList]
      · have ih := upsert_keys tl k v
        simp only [upsert, if_neg hk, JsonObj.keys, JsonObj.toList,
          List.map_cons] at ih ⊢
        rw [ih]
        have hne : ¬ (k = k0) := fun h => hk h.symm
        by_cases hmem : k ∈ tl.toList.map Prod.fst
        · rw [if_pos hmem, if_pos (by simp [List.mem_cons, hmem])]
        · rw [if_neg hmem, if_neg (by simp [List.mem_cons, hne, hmem])]
          simp

theorem upsert_keys_nodup (d : JsonObj) (k : Str) (v : Json)
    (h : d.keys.Nodup) : (upsert d k v).keys.Nodup := by
  rw [upsert_keys]
  by_cases hmem : k ∈ d.keys
  · rw [if_pos hmem]; exact h
  · rw [if_neg hmem]
    simp [List.nodup_append, h, hmem]

theorem insertAll_keys_nodup : ∀ (l acc : JsonObj), acc.keys.Nodup →
    (insertAll acc l).keys.Nodup
  | .nil, acc => fun h => h
  | .cons k v tl, acc => fun h =>
      insertAll_keys_nodup tl (upsert acc k v) (upsert_keys_nodup acc k v h)

theorem upsert_of_not_mem : ∀ (d : JsonObj) (k : Str) (v : Json),
    k ∉ d.keys → upsert d k v = d.append (.cons k v .nil)
  | .nil, k, v, _ => rfl
  | .cons k0 v0 tl, k, v, h => by
      have hk : ¬ (k0 = k) := by
        intro he
        exact h (by simp [JsonObj.keys, JsonObj.toList, he])
      have htl : k ∉ tl.keys := by
        intro he
        exact h (by simp [JsonObj.keys, JsonObj.toList] at he ⊢; exact Or.inr he)
      simp only [upsert, if_neg hk, JsonObj.append,
        upsert_of_not_mem tl k v htl]

theorem insertAll_of_nodup : ∀ (l acc : JsonObj),
    (acc.keys ++ l.keys).Nodup → insertAll acc l = acc.append l
  | .nil, acc, _ => (append_nil acc).symm
  | .cons k v tl, acc, h => by
      have hkeys : (JsonObj.cons k v tl).keys = k :: tl.keys := by
        simp [JsonObj.keys, JsonObj.toList]
      rw [hkeys] at h
      have hknot : k ∉ acc.keys := by
        intro hmem
        exact (List.disjoint_of_nodup_append h) hmem (by simp)
      have hup := upsert_of_not_mem acc k v hknot
      have hperm : ((acc.append (.cons k v .nil)).keys ++ tl.keys).Nodup := by
        rw [keys_append]
        have : acc.keys ++ (k :: tl.keys) =
            (acc.keys ++ (JsonObj.cons k v JsonObj.nil).keys) ++ tl.keys := by
          simp [JsonObj.keys, JsonObj.toList]
        rw [this] at h
        exact h
      calc insertAll acc (.cons k v tl)
            = insertAll (upsert acc k v) tl := rfl
        _ = insertAll (acc.append (.cons k v .nil)) tl := by rw [hup]
        _ = (acc.append (.cons k v .nil)).append tl :=
              insertAll_of_nodup tl _ hperm
        _ = acc.append (.cons k v tl) := by
              rw [append_assoc]
              rfl

theorem insertAll_nil_of_nodup (l : JsonObj) (h : l.keys.Nodup) :
    insertAll .nil l = l := by
  have : ((JsonObj.nil).keys ++ l.keys).Nodup := by
    simpa [JsonObj.keys, JsonObj.toList] using h
  rw [insertAll_of_nodup l .nil this]
  rfl

theorem anonEntries_toList (S : List Str) : ∀ es : JsonObj,
    (anonEntries S es).toList = es.toList.map
      (fun kv => (sanitize_key kv.1,
        if sanitize_key kv.1 ∈ S then REDACTED else anonymize S kv.2))
  | .nil => rfl
  | .cons k v tl => by
      simp only [anonEntries, JsonObj.toList, List.map_cons,
        anonEntries_toList S tl]

theorem anonEntries_fixed (S : List Str) : ∀ o : JsonObj,
    (∀ kv ∈ o.toList, sanitize_key kv.1 = kv.1 ∧ (kv.1 ∈ S → kv.2 = REDACTED)
      ∧ (kv.1 ∉ S → anonymize S kv.2 = kv.2)) →
    anonEntries S o = o
  | .nil, _ => rfl
  | .cons k v tl, h => by
      have hhead := h (k, v) (by simp [JsonObj.toList])
      have h1 : sanitize_key k = k := hhead.1
      have h2 : k ∈ S → v = REDACTED := hhead.2.1
      have h3 : k ∉ S → anonymize S v = v := hhead.2.2
      have htl := anonEntries_fixed S tl
        (fun kv hkv => h kv (by simp [JsonObj.toList, hkv]))
      simp only [anonEntries, h1, htl]
      by_cases hin : k ∈ S
      · rw [if_pos hin, h2 hin]
      · rw [if_neg hin, h3 hin]

mutual

theorem anonymize_idem_aux (S : List Str) : ∀ j : Json,
    anonymize S (anonymize S j) = anonymize S j
  | .null => rfl
  | .bool _ => rfl
  | .num _ => rfl
  | .str _ => rfl
  | .arr xs => by
      simp only [anonymize, anonArr_idem_aux S xs]
  | .obj es => by
      have hvals := anonEntriesVals_idem_aux S es
      simp only [anonymize]
      have hnd : (insertAll .nil (anonEntries S es)).keys.Nodup :=
        insertAll_keys_nodup _ _ (by simp [JsonObj.keys, JsonObj.toList])
      have hpoint : ∀ kv ∈ (insertAll .nil (anonEntries S es)).toList,
          sanitize_key kv.1 = kv.1 ∧ (kv.1 ∈ S → kv.2 = REDACTED) ∧
          (kv.1 ∉ S → anonymize S kv.2 = kv.2) := by
        intro kv hkv
        rcases insertAll_mem _ _ _ hkv with h0 | h0
        · simp [JsonObj.toList] at h0
        · rw [anonEntries_toList] at h0
          obtain ⟨kv₀, hkv₀, rfl⟩ := List.mem_map.mp h0
          refine ⟨sanitizeKey_idem _, ?_, ?_⟩
          · intro hin
            have hin' : sanitize_key kv₀.1 ∈ S := hin
            show (if sanitize_key kv₀.1 ∈ S then REDACTED
                else anonymize S kv₀.2) = REDACTED
            rw [if_pos hin']
          · intro hout
            have hout' : sanitize_key kv₀.1 ∉ S := hout
            show anonymize S (if sanitize_key kv₀.1 ∈ S then REDACTED
                else anonymize S kv₀.2)
              = (if sanitize_key kv₀.1 ∈ S then REDACTED
                else anonymize S kv₀.2)
            rw [if_neg hout', hvals kv₀ hkv₀]
      rw [anonEntries_fixed S _ hpoint, insertAll_nil_of_nodup _ hnd]

theorem anonArr_idem_aux (S : List Str) : ∀ xs : JsonArr,
    anonArr S (anonArr S xs) = anonArr S xs
  | .nil => rfl
  | .cons x tl => by
      simp only [anonArr, anonymize_idem_aux S x, anonArr_idem_aux S tl]

theorem anonEntriesVals_idem_aux (S : List Str) : ∀ es : JsonObj,
    ∀ kv ∈ es.toList, anonymize S (anonymize S kv.2) = anonymize S kv.2
  | .nil => by
      intro kv h
      simp [JsonObj.toList] at h
  | .cons k v tl => by
      intro kv h
      simp only [JsonObj.toList, List.mem_cons] at h
      rcases h with rfl | h
      · exact anonymize_idem_aux S v
      · exact anonEntriesVals_idem_aux S tl kv h

end

theorem filter_key_cons_pos {c : Str} (a : Str × Json)
    (l : List (Str × Json)) (h : a.1 = c) :
    (a :: l).filter (fun p => p.1 == c)
      = a :: l.filter (fun p => p.1 == c) := by
  rw [List.filter_cons, if_pos (by simp [h])]

theorem filter_key_cons_neg {c : Str} (a : Str × Json)
    (l : List (Str × Json)) (h : a.1 ≠ c) :
    (a :: l).filter (fun p => p.1 == c)
      = l.filter (fun p => p.1 == c) := by
  rw [List.filter_cons, if_neg (by simp [h])]

theorem upsert_filter_self : ∀ (d : JsonObj) (k : Str) (v : Json),
    (d.toList.filter (fun p => p.1 == k)).length ≤ 1 →
    (upsert d k v).toList.filter (fun p => p.1 == k) = [(k, v)]
  | .nil, k, v, _ => by simp [upsert, JsonObj.toList]
  | .cons k0 v0 tl, k, v, h => by
      by_cases hk : k0 = k
      · subst hk
        simp only [upsert, if_pos rfl, JsonObj.toList] at h ⊢
        rw [filter_key_cons_pos (k0, v0) tl.toList rfl] at h
        rw [filter_key_cons_pos (k0, v) tl.toList rfl]
        have hnil : tl.toList.filter (fun p => p.1 == k0) = [] := by
          cases hfl : tl.toList.filter (fun p => p.1 == k0) with
          | nil => rfl
          | cons a l =>
            rw [hfl] at h
            simp at h
        rw [hnil]
      · simp only [upsert, if_neg hk, JsonObj.toList] at h ⊢
        rw [filter_key_cons_neg _ _ hk] at h
        rw [filter_key_cons_neg _ _ hk]
        exact upsert_filter_self tl k v h

theorem upsert_filter_other : ∀ (d : JsonObj) (k : Str) (v : Json) (c : Str),
    k ≠ c → (upsert d k v).toList.filter (fun p => p.1 == c)
      = d.toList.filter (fun p => p.1 == c)
  | .nil, k, v, c, h => by simp [upsert, JsonObj.toList, h]
  | .cons k0 v0 tl, k, v, c, h => by
      by_cases hk : k0 = k
      · subst hk
        simp only [upsert, if_pos rfl, JsonObj.toList]
        rw [filter_key_cons_neg _ _ h, filter_key_cons_neg _ _ h]
      · simp only [upsert, if_neg hk, JsonObj.toList]
        by_cases hc : k0 = c
        · rw [filter_key_cons_pos _ _ hc, filter_key_cons_pos _ _ hc,
            upsert_filter_other tl k v c h]
        · rw [filter_key_cons_neg _ _ hc, filter_key_cons_neg _ _ hc,
            upsert_filter_other tl k v c h]

theorem insertAll_filter_none : ∀ (l acc : JsonObj) (c : Str),
    l.toList.filter (fun p => p.1 == c) = [] →
    (insertAll acc l).toList.filter (fun p => p.1 == c)
      = acc.toList.filter (fun p => p.1 == c)
  | .nil, _, _, _ => rfl
  | .cons k v tl, acc, c, h => by
      simp only [JsonObj.toList] at h
      have hkc : k ≠ c := by
        intro hcon
        rw [filter_key_cons_pos _ _ hcon] at h
        simp at h
      rw [filter_key_cons_neg _ _ hkc] at h
      show (insertAll (upsert acc k v) tl).toList.filter (fun p => p.1 == c) = _
      rw [insertAll_filter_none tl _ c h, upsert_filter_other acc k v c hkc]

theorem insertAll_filter_last : ∀ (l acc : JsonObj) (c : Str)
    (kv₀ : Str × Json),
    (l.toList.filter (fun p => p.1 == c)).getLast? = some kv₀ →
    (acc.toList.filter (fun p => p.1 == c)).length ≤ 1 →
    (insertAll acc l).toList.filter (fun p => p.1 == c) = [(c, kv₀.2)]
  | .nil, acc, c, kv₀, h, _ => by simp [JsonObj.toList] at h
  | .cons k v tl, acc, c, kv₀, h, hlen => by
      simp only [JsonObj.toList] at h
      show (insertAll (upsert acc k v) tl).toList.filter (fun p => p.1 == c)
        = _
      by_cases hk : k = c
      · subst hk
        rw [filter_key_cons_pos (k, v) tl.toList rfl] at h
        have hupfilter :
            (upsert acc k v).toList.filter (fun p => p.1 == k) = [(k, v)] :=
          upsert_filter_self acc k v hlen
        cases hfl : tl.toList.filter (fun p => p.1 == k) with
        | nil =>
          rw [hfl] at h
          simp only [List.getLast?_singleton, Option.some.injEq] at h
          rw [insertAll_filter_none tl _ k hfl, hupfilter, ← h]
        | cons a as =>
          rw [hfl] at h
          rw [List.getLast?_cons_cons] at h
          rw [← hfl] at h
          exact insertAll_filter_last tl _ k kv₀ h
            (by rw [hupfilter]; simp)
      · rw [filter_key_cons_neg _ _ hk] at h
        have hup : ((upsert acc k v).toList.filter
            (fun p => p.1 == c)).length ≤ 1 := by
          rw [upsert_filter_other acc k v c hk]
          exact hlen
        exact insertAll_filter_last tl _ c kv₀ h hup

theorem anonEntries_filter (S : List Str) (es : JsonObj) (c : Str) :
    (anonEntries S es).toList.filter (fun p => p.1 == c)
      = (es.toList.filter (fun kv => sanitize_key kv.1 == c)).map
          (fun kv => (sanitize_key kv.1,
            if sanitize_key kv.1 ∈ S then REDACTED else anonymize S kv.2)) := by
  rw [anonEntries_toList, List.filter_map]
  congr 1

theorem anonymize_last_collision (S : List Str) (es : JsonObj) (c : Str)
    (kv₀ : Str × Json)
    (h : (es.toList.filter
      (fun kv => sanitize_key kv.1 == c)).getLast? = some kv₀) :
    (objEntries (anonymize S (.obj es))).toList.filter (fun p => p.1 == c)
      = [(c, if c ∈ S then REDACTED else anonymize S kv₀.2)] := by
  have hlast : ((anonEntries S es).toList.filter
      (fun p => p.1 == c)).getLast?
      = some (sanitize_key kv₀.1,
          if sanitize_key kv₀.1 ∈ S then REDACTED else anonymize S kv₀.2) := by
    rw [anonEntries_filter, List.getLast?_map, h]
    rfl
  have hc : sanitize_key kv₀.1 = c := by
    have hmem : kv₀ ∈ es.toList.filter (fun kv => sanitize_key kv.1 == c) :=
      List.mem_of_getLast?_eq_some h
    have := (List.mem_filter.mp hmem).2
    simpa using this
  show (insertAll .nil (anonEntries S es)).toList.filter
      (fun p => p.1 == c) = _
  rw [insertAll_filter_last _ _ _ _ hlast (by simp [JsonObj.toList])]
  simp [hc]

theorem anonymize_obj_of_nodup (S : List Str) (es : JsonObj)
    (h : (es.toList.map (fun kv => sanitize_key kv.1)).Nodup) :
    (objEntries (anonymize S (.obj es))).toList
      = es.toList.map (fun kv => (sanitize_key kv.1,
          if sanitize_key kv.1 ∈ S then REDACTED else anonymize S kv.2)) := by
  have hkeys : (anonEntries S es).keys
      = es.toList.map (fun kv => sanitize_key kv.1) := by
    simp only [JsonObj.keys, anonEntries_toList, List.map_map]
    rfl
  have hins : insertAll .nil (anonEntries S es) = anonEntries S es :=
    insertAll_nil_of_nodup _ (by rw [hkeys]; exact h)
  show (insertAll .nil (anonEntries S es)).toList = _
  rw [hins, anonEntries_toList]

theorem allKeysObj_mem : ∀ (o : JsonObj) (c : Str),
    c ∈ allKeysObj o → ∃ kv ∈ o.toList, c = kv.1 ∨ c ∈ allKeys kv.2
  | .nil, c => by
      intro h
      simp [allKeysObj] at h
  | .cons k v tl, c => by
      intro h
      simp only [allKeysObj, List.mem_cons, List.mem_append] at h
      rcases h with h | h | h
      · exact ⟨(k, v), by simp [JsonObj.toList], Or.inl h⟩
      · exact ⟨(k, v), by simp [JsonObj.toList], Or.inr h⟩
      · obtain ⟨kv, hkv, hc⟩ := allKeysObj_mem tl c h
        exact ⟨kv, by simp [JsonObj.toList, hkv], hc⟩

theorem extractObj_mem_key : ∀ (es : JsonObj) (kv : Str × Json),
    kv ∈ es.toList → pyIsDigit (sanitize_key kv.1) = false →
    sanitize_key kv.1 ∈ extractObj es
  | .nil, kv => by
      intro h _
      simp [JsonObj.toList] at h
  | .cons k v tl, kv => by
      intro h hd
      simp only [JsonObj.toList, List.mem_cons] at h
      simp only [extractObj, List.mem_append]
      rcases h with rfl | h
      · left
        left
        have hd' : pyIsDigit (sanitize_key k) = false := hd
        simp [hd']
      · right
        exact extractObj_mem_key tl kv h hd

theorem extractObj_mem_val : ∀ (es : JsonObj) (kv : Str × Json) (c : Str),
    kv ∈ es.toList → c ∈ extract_keys kv.2 → c ∈ extractObj es
  | .nil, kv, c => by
      intro h _
      simp [JsonObj.toList] at h
  | .cons k v tl, kv, c => by
      intro h hc
      simp only [JsonObj.toList, List.mem_cons] at h
      simp only [extractObj, List.mem_append]
      rcases h with rfl | h
      · exact Or.inl (Or.inr hc)
      · exact Or.inr (extractObj_mem_val tl kv c h hc)

mutual

theorem anonymize_discovery_aux (S : List Str) : ∀ (j : Json) (c : Str),
    c ∈ allKeys (anonymize S j) → pyIsDigit c = false → c ∈ extract_keys j
  | .null, c => by
      intro h _
      simp [anonymize, allKeys] at h
  | .bool _, c => by
      intro h _
      simp [anonymize, allKeys] at h
  | .num _, c => by
      intro h _
      simp [anonymize, allKeys] at h
  | .str _, c => by
      intro h _
      simp [anonymize, allKeys] at h
  | .arr xs, c => by
      intro h hd
      simp only [anonymize, allKeys] at h
      simp only [extract_keys]
      exact anonArr_discovery_aux S xs c h hd
  | .obj es, c => by
      intro h hd
      simp only [anonymize, allKeys] at h
      obtain ⟨kv, hkv, hc⟩ := allKeysObj_mem _ c h
      rcases insertAll_mem _ _ _ hkv with h0 | h0
      · simp [JsonObj.toList] at h0
      · rw [anonEntries_toList] at h0
        obtain ⟨kv₀, hkv₀, rfl⟩ := List.mem_map.mp h0
        simp only [extract_keys]
        simp only at hc
        rcases hc with rfl | hc
        · exact extractObj_mem_key es kv₀ hkv₀ hd
        · by_cases hin : sanitize_key kv₀.1 ∈ S
          · rw [if_pos hin] at hc
            simp [allKeys, REDACTED] at hc
          · rw [if_neg hin] at hc
            exact extractObj_mem_val es kv₀ c hkv₀
              (anonObjVals_discovery_aux S es kv₀ hkv₀ c hc hd)

theorem anonArr_discovery_aux (S : List Str) : ∀ (xs : JsonArr) (c : Str),
    c ∈ allKeysArr (anonArr S xs) → pyIsDigit c = false → c ∈ extractArr xs
  | .nil, c => by
      intro h _
      simp [anonArr, allKeysArr] at h
  | .cons x tl, c => by
      intro h hd
      simp only [anonArr, allKeysArr, List.mem_append] at h
      simp only [extractArr, List.mem_append]
      rcases h with h | h
      · exact Or.inl (anonymize_discovery_aux S x c h hd)
      · exact Or.inr (anonArr_discovery_aux S tl c h hd)

theorem anonObjVals_discovery_aux (S : List Str) : ∀ (es : JsonObj),
    ∀ kv ∈ es.toList, ∀ c : Str,
    c ∈ allKeys (anonymize S kv.2) → pyIsDigit c = false →
    c ∈ extract_keys kv.2
  | .nil => by
      intro kv h
      simp [JsonObj.toList] at h
  | .cons k v tl => by
      intro kv h c hc hd
      simp only [JsonObj.toList, List.mem_cons] at h
      rcases h with rfl | h
      · exact anonymize_discovery_aux S v c hc hd
      · exact anonObjVals_discovery_aux S tl kv h c hc hd

end

mutual

theorem extract_keys_no_digit_aux : ∀ (j : Json) (c : Str),
    c ∈ extract_keys j → pyIsDigit c = false
  | .null, c => by
      intro h
      simp [extract_keys] at h
  | .bool _, c => by
      intro h
      simp [extract_keys] at h
  | .num _, c => by
      intro h
      simp [extract_keys] at h
  | .str _, c => by
      intro h
      simp [extract_keys] at h
  | .arr xs, c => fun h => extractArr_no_digit_aux xs c h
  | .obj es, c => fun h => extractObj_no_digit_aux es c h

theorem extractArr_no_digit_aux : ∀ (xs : JsonArr) (c : Str),
    c ∈ extractArr xs → pyIsDigit c = false
  | .nil, c => by
      intro h
      simp [extractArr] at h
  | .cons x tl, c => by
      intro h
      simp only [extractArr, List.mem_append] at h
      rcases h with h | h
      · exact extract_keys_no_digit_aux x c h
      · exact extractArr_no_digit_aux tl c h

theorem extractObj_no_digit_aux : ∀ (es : JsonObj) (c : Str),
    c ∈ extractObj es → pyIsDigit c = false
  | .nil, c => by
      intro h
      simp [extractObj] at h
  | .cons k v tl, c => by
      intro h
      simp only [extractObj, List.mem_append] at h
      rcases h with (h | h) | h
      · by_cases hdig : pyIsDigit (sanitize_key k) = true
        · rw [if_pos hdig] at h
          simp at h
        · rw [if_neg hdig] at h
          simp only [List.mem_singleton] at h
          subst h
          exact Bool.not_eq_true _ |>.mp hdig
      · exact extract_keys_no_digit_aux v c h
      · exact extractObj_no_digit_aux tl c h

end

theorem head?_dropWhile (p : Char → Bool) : ∀ (l : Str) (a : Char),
    (l.dropWhile p).head? = some a → p a = false
  | [], a => by
      intro h
      simp at h
  | b :: l, a => by
      intro h
      by_cases hb : p b = true
      · rw [List.dropWhile_cons_of_pos hb] at h
        exact head?_dropWhile p l a h
      · rw [List.dropWhile_cons_of_neg (by simp [hb])] at h
        simp only [List.head?_cons, Option.some.injEq] at h
        subst h
        exact Bool.not_eq_true _ |>.mp hb

theorem rstripColon_no_trailing (s : Str) :
    (rstripColon s).getLast? ≠ some ':' := by
  intro h
  unfold rstripColon at h
  rw [List.getLast?_reverse] at h
  have := head?_dropWhile _ _ _ h
  simp at this

theorem anonEntries_keys (S : List Str) (es : JsonObj) :
    (anonEntries S es).keys = es.toList.map (fun kv => sanitize_key kv.1) := by
  simp only [JsonObj.keys, anonEntries_toList, List.map_map]
  rfl

mutual

theorem anonymize_eq_spec_aux (S : List Str) : ∀ j : Json,
    noCollision j = true → anonymize S j = specRedact S j
  | .null => fun _ => rfl
  | .bool _ => fun _ => rfl
  | .num _ => fun _ => rfl
  | .str _ => fun _ => rfl
  | .arr xs => by
      intro h
      simp only [anonymize, specRedact]
      rw [anonArr_eq_spec_aux S xs h]
  | .obj es => by
      intro h
      simp only [noCollision, Bool.and_eq_true, decide_eq_true_eq] at h
      obtain ⟨hnd, hrec⟩ := h
      simp only [anonymize, specRedact]
      rw [insertAll_nil_of_nodup _ (by rw [anonEntries_keys]; exact hnd),
        anonEntriesObj_eq_spec_aux S es hrec]

theorem anonArr_eq_spec_aux (S : List Str) : ∀ xs : JsonArr,
    noCollisionArr xs = true → anonArr S xs = specRedactArr S xs
  | .nil => fun _ => rfl
  | .cons x tl => by
      intro h
      simp only [noCollisionArr, Bool.and_eq_true] at h
      simp only [anonArr, specRedactArr]
      rw [anonymize_eq_spec_aux S x h.1, anonArr_eq_spec_aux S tl h.2]

theorem anonEntriesObj_eq_spec_aux (S : List Str) : ∀ es : JsonObj,
    noCollisionObj es = true → anonEntries S es = specRedactObj S es
  | .nil => fun _ => rfl
  | .cons k v tl => by
      intro h
      simp only [noCollisionObj, Bool.and_eq_true] at h
      simp only [anonEntries, specRedactObj]
      rw [anonEntriesObj_eq_spec_aux S tl h.2]
      by_cases hin : sanitize_key k ∈ S
      · rw [if_pos hin, if_pos hin]
      · rw [if_neg hin, if_neg hin, anonymize_eq_spec_aux S v h.1]

end

/-- Claim C1: redacting
`{"username":"bob","bio":"hi","posts":[{"text":"hello","likes":5}]}` with
redaction set `{"username"}` yields exactly
`{"username":"REDACTED","bio":"hi","posts":[{"text":"hello","likes":5}]}`,
and key discovery on the same input yields exactly the set
`{"username","bio","posts","text","likes"}`. -/
theorem claim_C1_end_to_end :
    anonymize ["username".toList] scenarioDoc = scenarioRedacted ∧
    ∀ s : Str, s ∈ extract_keys scenarioDoc ↔
      s ∈ ["username".toList, "bio".toList, "posts".toList, "text".toList,
        "likes".toList] := by
  constructor
  · decide
  · intro s
    have h : extract_keys scenarioDoc
        = ["username".toList, "bio".toList, "posts".toList, "text".toList,
           "likes".toList] := by decide
    rw [h]

/-- Claim C2: redaction is idempotent — for every JSON value `T` and every
redaction set `S`, `anonymize(anonymize(T, S), S) == anonymize(T, S)`. -/
theorem claim_C2_redaction_idempotent (T : Json) (S : List Str) :
    anonymize S (anonymize S T) = anonymize S T :=
  anonymize_idem_aux S T

/-- Claim C3, counterexample to the claim as stated: the object
`{"a": null, "a:": null}` has two entries whose raw keys both sanitize to
the canonical key `"a"`; redacting it with the empty redaction set produces
an object with a single entry, so an entry was removed and the output is not
entry-for-entry isomorphic to the input. -/
theorem claim_C3_counterexample :
    (objEntries (anonymize [] (.obj collisionObj))).length = 1 ∧
    collisionObj.length = 2 := by decide

/-- Claim C3 as amended: when every object in `T` has pairwise-distinct
canonical keys, `anonymize` coincides with the entry-for-entry spec
transformer `specRedact`, which keeps every entry (as its canonical key),
replaces a redaction-set member's value by the marker, recursively processes
every other value, and removes nothing. -/
theorem claim_C3_structural_fidelity (S : List Str) (T : Json)
    (h : noCollision T = true) :
    anonymize S T = specRedact S T :=
  anonymize_eq_spec_aux S T h

/-- Claim C3 witness: the scenario document is collision-free, and redacting
it equals the entry-for-entry spec transformation. -/
theorem claim_C3_witness :
    noCollision scenarioDoc = true ∧
    anonymize ["username".toList] scenarioDoc
      = specRedact ["username".toList] scenarioDoc :=
  ⟨by decide, claim_C3_structural_fidelity ["username".toList] scenarioDoc
    (by decide)⟩

/-- Claim C4, counterexample to the claim as stated: in `{"0": null}`, the
canonical key `"0"` appears (un-redacted) in the output of `anonymize` with
the empty redaction set, yet discovery returns the empty set because the
key is all-digit. -/
theorem claim_C4_counterexample :
    "0".toList ∈ allKeys (anonymize [] digitDoc) ∧
    "0".toList ∉ extract_keys digitDoc := by decide

/-- Claim C4 as amended: every canonical key appearing anywhere in
`anonymize(T, S)` that is not composed entirely of decimal digits is a
member of `extract_keys(T)`. Redacted branches are scalar markers and
contain no keys, so this covers exactly the keys visible in the output. -/
theorem claim_C4_discovery_completeness (T : Json) (S : List Str) (c : Str)
    (h1 : c ∈ allKeys (anonymize S T)) (h2 : pyIsDigit c = false) :
    c ∈ extract_keys T :=
  anonymize_discovery_aux S T c h1 h2

/-- Claim C4 witness: the key `"bio"` appears in the redacted scenario
document and is discovered on the input. -/
theorem claim_C4_witness :
    "bio".toList ∈ allKeys (anonymize ["username".toList] scenarioDoc) ∧
    pyIsDigit ("bio".toList) = false ∧
    "bio".toList ∈ extract_keys scenarioDoc :=
  ⟨by decide, by decide,
    claim_C4_discovery_completeness scenarioDoc ["username".toList]
      ("bio".toList) (by decide) (by decide)⟩

/-- Claim C5, counterexample to the claim as stated: sanitizing
`"Chat History with Alice:"` does not yield `"Chat History"`. -/
theorem claim_C5_counterexample :
    sanitize_key ("Chat History with Alice:".toList)
      ≠ "Chat History".toList := by decide

/-- Claim C5 as amended: the chat-history pattern matches, the text before
the first colon is `"Chat History with Alice"`, and title-casing it yields
`"Chat History With Alice"`. -/
theorem claim_C5_chat_history :
    sanitize_key ("Chat History with Alice:".toList)
      = "Chat History With Alice".toList := by decide

/-- Claim C6, counterexample to the claim as stated: `"plain_key::"` matches
no pattern and ends in two colons, and `sanitize_key` removes both of them,
not exactly one. -/
theorem claim_C6_counterexample :
    KEY_PATTERNS.any (fun p => p ("plain_key::".toList)) = false ∧
    sanitize_key ("plain_key::".toList) = "plain_key".toList ∧
    "plain_key".toList ≠ "plain_key:".toList := by decide

/-- Claim C6 as amended: for every raw key that matches none of the key
pattern rules, `sanitize_key` strips all trailing colon characters — the key
is the result followed by some run of colons — and the result itself ends in
no colon (the rest of the key, including case, is unchanged). -/
theorem claim_C6_strip_trailing (k : Str)
    (h : KEY_PATTERNS.any (fun p => p k) = false) :
    (∃ m : Nat, k = sanitize_key k ++ List.replicate m ':') ∧
    (sanitize_key k).getLast? ≠ some ':' := by
  have hs : sanitize_key k = rstripColon k := by
    simp [sanitize_key, h]
  constructor
  · obtain ⟨t, hall, hdecomp⟩ := rstripColon_append k
    refine ⟨t.length, ?_⟩
    rw [hs, ← List.eq_replicate_of_mem hall]
    exact hdecomp
  · rw [hs]
    exact rstripColon_no_trailing k

/-- Claim C6 witness: instantiated at the non-matching key
`"plain_key::"`. -/
theorem claim_C6_witness :
    KEY_PATTERNS.any (fun p => p ("plain_key::".toList)) = false ∧
    ((∃ m : Nat, "plain_key::".toList
        = sanitize_key ("plain_key::".toList) ++ List.replicate m ':') ∧
     (sanitize_key ("plain_key::".toList)).getLast? ≠ some ':') :=
  ⟨by decide, claim_C6_strip_trailing ("plain_key::".toList) (by decide)⟩

/-- Claim C7: the key sanitizer satisfies the three literal equations
`sanitize_key("comments: foo") == "Comments"`,
`sanitize_key("plain_key:") == "plain_key"` and
`sanitize_key("plain_key") == "plain_key"`. -/
theorem claim_C7_literal_equations :
    sanitize_key ("comments: foo".toList) = "Comments".toList ∧
    sanitize_key ("plain_key:".toList) = "plain_key".toList ∧
    sanitize_key ("plain_key".toList) = "plain_key".toList := by decide

/-- Claim C8: discovery on `{"0":"a","1":"b"}` returns the empty set, and in
general every key in the discovery result of any JSON value fails Python
`isdigit` — no all-digit canonical key is ever discovered. -/
theorem claim_C8_digit_exclusion :
    extract_keys (.obj digitPairObj) = [] ∧
    ∀ (T : Json) (c : Str), c ∈ extract_keys T → pyIsDigit c = false :=
  ⟨by decide, fun T c h => extract_keys_no_digit_aux T c h⟩

/-- Claim C8 witness: the discovered key `"bio"` of the scenario document is
not all-digit. -/
theorem claim_C8_witness :
    "bio".toList ∈ extract_keys scenarioDoc ∧
    pyIsDigit ("bio".toList) = false :=
  ⟨by decide, claim_C8_digit_exclusion.2 scenarioDoc ("bio".toList)
    (by decide)⟩

/-- Claim C9: the key sanitizer is idempotent — every canonical key is a
fixed point of sanitization. -/
theorem claim_C9_sanitize_idempotent (k : Str) :
    sanitize_key (sanitize_key k) = sanitize_key k :=
  sanitizeKey_idem k

/-- Claim C10: when several raw keys of one object sanitize to the same
canonical key `c`, the redacted object carries exactly one entry with key
`c`, whose value is the redacted-or-recursively-processed value of the last
such raw key in insertion order; the other colliding entries are dropped. -/
theorem claim_C10_last_collision_wins (S : List Str) (es : JsonObj)
    (c : Str) (kv₀ : Str × Json)
    (h : (es.toList.filter
      (fun kv => sanitize_key kv.1 == c)).getLast? = some kv₀) :
    (objEntries (anonymize S (.obj es))).toList.filter (fun p => p.1 == c)
      = [(c, if c ∈ S then REDACTED else anonymize S kv₀.2)] :=
  anonymize_last_collision S es c kv₀ h

/-- Claim C10 witness: in `{"a": 1, "a:": 2}` both raw keys sanitize to
`"a"`; the redacted object holds a single `"a"` entry carrying the value of
the later raw key `"a:"`. -/
theorem claim_C10_witness :
    ((collisionPair.toList.filter
        (fun kv => sanitize_key kv.1 == "a".toList)).getLast?
      = some ("a:".toList, Json.num 2)) ∧
    (objEntries (anonymize [] (.obj collisionPair))).toList.filter
        (fun p => p.1 == "a".toList)
      = [("a".toList, if "a".toList ∈ ([] : List Str) then REDACTED
          else anonymize [] (Json.num 2))] :=
  ⟨by decide, claim_C10_last_collision_wins [] collisionPair ("a".toList)
    ("a:".toList, Json.num 2) (by decide)⟩

end UploadApp
